import Mathlib

set_option maxRecDepth 4000

/-!
# Verification of the text-corruption utility (`internal/utils/corrupt.go`)

Shallow embedding of `CorruptText` and its constant tables.  Strings are
modelled at the Unicode code-point level (`List Char`), mirroring the Go
code's `[]rune(word)` conversions and `strings.Fields` tokenisation.  The
process-wide random source is modelled as an explicit stream `RandSrc`
together with a call counter: each call to the generator (`rand.Float64`
or `rand.Intn`) consumes one position of the stream, in program order.
Go panics (out-of-bounds slice indexing, `Intn` with a non-positive
bound) are modelled by `Option`: `none` is a panic.
-/

/-- The glyph palette `glitchChars` from corrupt.go. -/
def glitchChars : List Char := ['█', '▓', '▒', '░', '#', '*', '?', '!', '@', '%', '&']

/-- The whole-word replacement table `glitchWords` from corrupt.go. -/
def glitchWords : List (List Char) :=
  ["[DATA_EXPUNGED]", "[ERR_CORRUPT]", "[SECTOR_LOST]", "[SIGNAL_DEGRADED]"].map
    String.toList

/-- Go's `unicode.IsSpace`: the white-space code points used by
`strings.Fields` to delimit tokens. -/
def isSpace (c : Char) : Bool :=
  c == ' ' || c == '\t' || c == '\n' || c.toNat == 0x0B || c.toNat == 0x0C ||
  c == '\r' || c.toNat == 0x85 || c.toNat == 0xA0 || c.toNat == 0x1680 ||
  (decide (0x2000 ≤ c.toNat) && decide (c.toNat ≤ 0x200A)) ||
  c.toNat == 0x2028 || c.toNat == 0x2029 || c.toNat == 0x202F ||
  c.toNat == 0x205F || c.toNat == 0x3000

/-- The characters the per-character corruption loop skips
(`char == ' ' || char == '.' || char == ','` in corrupt.go). -/
def preservedChar (c : Char) : Bool := c == ' ' || c == '.' || c == ','

/-- Accumulator-style splitter behind `fields`: `acc` holds the runes of the
current token in reverse. -/
def fieldsAux : List Char → List Char → List (List Char)
  | acc, [] => if acc.isEmpty then [] else [acc.reverse]
  | acc, c :: cs =>
    if isSpace c then
      if acc.isEmpty then fieldsAux [] cs else acc.reverse :: fieldsAux [] cs
    else fieldsAux (c :: acc) cs

/-- Go's `strings.Fields`: split around maximal runs of white space,
returning no empty tokens. -/
def fields (s : List Char) : List (List Char) := fieldsAux [] s

/-- Go's `strings.Join(words, " ")` at the code-point level. -/
def joinWords : List (List Char) → List Char
  | [] => []
  | [w] => w
  | w :: ws => w ++ ' ' :: joinWords ws

/-- The random source: `floats n` is the value returned by the `n`-th
generator call when that call is `rand.Float64()` (a real in `[0,1)`,
modelled as a rational), and `nats n` is the raw value drawn when the
`n`-th call is `rand.Intn`. -/
structure RandSrc where
  floats : Nat → ℚ
  nats : Nat → Nat

/-- `glitchChars[rand.Intn(len(glitchChars))]` for raw draw `v`:
`rand.Intn k` returns `v % k` (and panics when `k = 0`, which here
coincides with the failing lookup in the empty list). -/
def pickGlitchChar (v : Nat) : Option Char :=
  glitchChars.get? (v % glitchChars.length)

/-- `glitchWords[rand.Intn(len(glitchWords))]` for raw draw `v`. -/
def pickGlitchWord (v : Nat) : Option (List Char) :=
  glitchWords.get? (v % glitchWords.length)

/-- The inner rune loop of `CorruptText`: walk the runes of a word that was
not selected for whole-word replacement, skipping preserved characters and
otherwise drawing against `p = probCharCorrupt`; on success replace the rune
with a palette glyph.  The `Nat` argument is the generator call counter. -/
def corruptRunes (g : RandSrc) (p : ℚ) : List Char → Nat → Option (List Char × Nat)
  | [], n => some ([], n)
  | c :: cs, n =>
    if preservedChar c then
      match corruptRunes g p cs n with
      | none => none
      | some (cs', n') => some (c :: cs', n')
    else if g.floats n < p then
      match pickGlitchChar (g.nats (n + 1)) with
      | none => none
      | some ch =>
        match corruptRunes g p cs (n + 2) with
        | none => none
        | some (cs', n') => some (ch :: cs', n')
    else
      match corruptRunes g p cs (n + 1) with
      | none => none
      | some (cs', n') => some (c :: cs', n')

/-- The word loop of `CorruptText`: for each word draw against
`pw = probWordCorrupt`; on success replace the whole word with a glitch
word, otherwise run the rune loop with `pc = probCharCorrupt`. -/
def corruptWords (g : RandSrc) (pw pc : ℚ) :
    List (List Char) → Nat → Option (List (List Char) × Nat)
  | [], n => some ([], n)
  | w :: ws, n =>
    if g.floats n < pw then
      match pickGlitchWord (g.nats (n + 1)) with
      | none => none
      | some gw =>
        match corruptWords g pw pc ws (n + 2) with
        | none => none
        | some (ws', n') => some (gw :: ws', n')
    else
      match corruptRunes g pc w (n + 1) with
      | none => none
      | some (w', n1) =>
        match corruptWords g pw pc ws n1 with
        | none => none
        | some (ws', n') => some (w' :: ws', n')

/-- `CorruptText` from corrupt.go: identity fast path for `severity ≤ 0`,
clamp to 100, derive the two thresholds, split into fields, corrupt each
word, rejoin with single spaces. -/
def CorruptText (g : RandSrc) (input : List Char) (severity : Int) : Option (List Char) :=
  if severity ≤ 0 then some input
  else
    let sev : Int := if severity > 100 then 100 else severity
    let probCharCorrupt : ℚ := (sev : ℚ) / 100
    let probWordCorrupt : ℚ := (sev : ℚ) / 500
    match corruptWords g probWordCorrupt probCharCorrupt (fields input) 0 with
    | none => none
    | some (ws, _) => some (joinWords ws)

/-- A random stream whose float draws all fail both thresholds at any
severity below 100 (draws of 99/100) and whose raw integer draws are zero. -/
def gHigh : RandSrc := ⟨fun _ => Rat.divInt 99 100, fun _ => 0⟩

/-- A random stream with all float draws 1/2 and all raw integer draws 0. -/
def gHalf : RandSrc := ⟨fun _ => Rat.divInt 1 2, fun _ => 0⟩

/-- A random stream with all float draws 0 (every draw succeeds) and all
raw integer draws 0. -/
def gZero : RandSrc := ⟨fun _ => 0, fun _ => 0⟩

/-- The UTF-8 bytes of one code point, as produced when Go re-encodes the
rune slice with `string(runes)` (every `Char` is a valid scalar value, so
the surrogate-free branches below are exhaustive). -/
def utf8EncodeChar (c : Char) : List Nat :=
  if c.toNat < 0x80 then [c.toNat]
  else if c.toNat < 0x800 then [0xC0 + c.toNat / 64, 0x80 + c.toNat % 64]
  else if c.toNat < 0x10000 then
    [0xE0 + c.toNat / 4096, 0x80 + c.toNat / 64 % 64, 0x80 + c.toNat % 64]
  else
    [0xF0 + c.toNat / 262144, 0x80 + c.toNat / 4096 % 64,
      0x80 + c.toNat / 64 % 64, 0x80 + c.toNat % 64]

/-- The UTF-8 bytes of a code-point sequence. -/
def utf8Encode (cs : List Char) : List Nat := cs.flatMap utf8EncodeChar

/-- A UTF-8 continuation byte. -/
def contByte (b : Nat) : Bool := decide (0x80 ≤ b) && decide (b < 0xC0)

/-- A strict UTF-8 decoder, written as a byte-at-a-time state machine:
`utf8DecodeSM bs k acc lo` expects `k` further continuation bytes of a
partially read code point with accumulated value `acc` and overlong
threshold `lo` (`k = 0` between characters).  It rejects truncated
sequences, stray or missing continuation bytes, overlong forms, surrogate
code points and values above U+10FFFF, so decoding succeeds exactly on
well-formed byte strings, giving back whole code points. -/
def utf8DecodeSM : List Nat → Nat → Nat → Nat → Option (List Char)
  | [], 0, _, _ => some []
  | [], _ + 1, _, _ => none
  | b :: bs, 0, _, _ =>
    if b < 0x80 then (utf8DecodeSM bs 0 0 0).map (fun cs => Char.ofNat b :: cs)
    else if b < 0xC0 then none
    else if b < 0xE0 then utf8DecodeSM bs 1 (b - 0xC0) 0x80
    else if b < 0xF0 then utf8DecodeSM bs 2 (b - 0xE0) 0x800
    else if b < 0xF8 then utf8DecodeSM bs 3 (b - 0xF0) 0x10000
    else none
  | b :: bs, 1, acc, lo =>
    if contByte b then
      if lo ≤ acc * 64 + (b - 0x80) ∧
          (acc * 64 + (b - 0x80) < 0xD800 ∨ 0xE000 ≤ acc * 64 + (b - 0x80)) ∧
          acc * 64 + (b - 0x80) < 0x110000 then
        (utf8DecodeSM bs 0 0 0).map (fun cs => Char.ofNat (acc * 64 + (b - 0x80)) :: cs)
      else none
    else none
  | b :: bs, k + 2, acc, lo =>
    if contByte b then utf8DecodeSM bs (k + 1) (acc * 64 + (b - 0x80)) lo
    else none

/-- Decode a UTF-8 byte string to its code points (strict; `none` on any
ill-formed input). -/
def utf8Decode (bs : List Nat) : Option (List Char) := utf8DecodeSM bs 0 0 0

/-- For positive severity at most 100, `CorruptText` runs the word loop with
the thresholds `severity/500` and `severity/100`, written with `Rat.divInt`
so that concrete runs evaluate by `decide`. -/
theorem CorruptText_divInt (g : RandSrc) (input : List Char) (severity : Int)
    (h0 : 0 < severity) (h1 : severity ≤ 100) :
    CorruptText g input severity =
      match corruptWords g (Rat.divInt severity 500) (Rat.divInt severity 100)
          (fields input) 0 with
      | none => none
      | some (ws, _) => some (joinWords ws) := by
  have hdiv : ∀ d : Int, Rat.divInt severity d = (severity : ℚ) / (d : ℚ) := by
    intro d
    exact Rat.divInt_eq_div severity d
  rw [CorruptText, if_neg (by omega), if_neg (by omega), hdiv, hdiv]
  norm_num

/-- The palette pick always succeeds and lands in the palette. -/
theorem pickGlitchChar_spec (v : Nat) :
    ∃ c, pickGlitchChar v = some c ∧ c ∈ glitchChars := by
  have h : v % glitchChars.length < glitchChars.length := Nat.mod_lt _ (by decide)
  exact ⟨glitchChars.get ⟨v % glitchChars.length, h⟩,
    by simp [pickGlitchChar, List.get?_eq_get h], List.get_mem _ _ _⟩

/-- The glitch-word pick always succeeds and lands in the table. -/
theorem pickGlitchWord_spec (v : Nat) :
    ∃ w, pickGlitchWord v = some w ∧ w ∈ glitchWords := by
  have h : v % glitchWords.length < glitchWords.length := Nat.mod_lt _ (by decide)
  exact ⟨glitchWords.get ⟨v % glitchWords.length, h⟩,
    by simp [pickGlitchWord, List.get?_eq_get h], List.get_mem _ _ _⟩

/-- Structural facts about the rune loop, in one induction: it always
succeeds, preserves the code-point length, keeps every preserved character
at its position, and only emits original or palette characters. -/
theorem corruptRunes_spec (g : RandSrc) (p : ℚ) :
    ∀ (cs : List Char) (n : Nat), ∃ cs' n',
      corruptRunes g p cs n = some (cs', n') ∧
      cs'.length = cs.length ∧
      (∀ j c, cs.get? j = some c → preservedChar c = true → cs'.get? j = some c) ∧
      (∀ c ∈ cs', c ∈ cs ∨ c ∈ glitchChars) := by
  intro cs
  induction cs with
  | nil => exact fun n => ⟨[], n, rfl, rfl, by simp, by simp⟩
  | cons c cs ih =>
    intro n
    by_cases hp : preservedChar c
    · obtain ⟨cs', n', heq, hlen, hpres, hmem⟩ := ih n
      refine ⟨c :: cs', n', ?_, by simp [hlen], ?_, ?_⟩
      · simp [corruptRunes, hp, heq]
      · intro j d hj hd
        cases j with
        | zero => simpa using hj
        | succ j => exact hpres j d (by simpa using hj) hd
      · intro d hd
        rcases List.mem_cons.1 hd with h1 | h1
        · exact Or.inl (h1 ▸ List.mem_cons_self c cs)
        · rcases hmem d h1 with h2 | h2
          · exact Or.inl (List.mem_cons_of_mem _ h2)
          · exact Or.inr h2
    · by_cases hf : g.floats n < p
      · obtain ⟨ch, hch, hchm⟩ := pickGlitchChar_spec (g.nats (n + 1))
        obtain ⟨cs', n', heq, hlen, hpres, hmem⟩ := ih (n + 2)
        refine ⟨ch :: cs', n', ?_, by simp [hlen], ?_, ?_⟩
        · simp [corruptRunes, hp, hf, hch, heq]
        · intro j d hj hd
          cases j with
          | zero =>
            exfalso
            have : c = d := by simpa using hj
            exact hp (this ▸ hd)
          | succ j => exact hpres j d (by simpa using hj) hd
        · intro d hd
          rcases List.mem_cons.1 hd with h1 | h1
          · exact Or.inr (h1 ▸ hchm)
          · rcases hmem d h1 with h2 | h2
            · exact Or.inl (List.mem_cons_of_mem _ h2)
            · exact Or.inr h2
      · obtain ⟨cs', n', heq, hlen, hpres, hmem⟩ := ih (n + 1)
        refine ⟨c :: cs', n', ?_, by simp [hlen], ?_, ?_⟩
        · simp [corruptRunes, hp, hf, heq]
        · intro j d hj hd
          cases j with
          | zero => simpa using hj
          | succ j => exact hpres j d (by simpa using hj) hd
        · intro d hd
          rcases List.mem_cons.1 hd with h1 | h1
          · exact Or.inl (h1 ▸ List.mem_cons_self c cs)
          · rcases hmem d h1 with h2 | h2
            · exact Or.inl (List.mem_cons_of_mem _ h2)
            · exact Or.inr h2

/-- Extract the length fact from `corruptRunes_spec` for a given run. -/
theorem corruptRunes_length {g : RandSrc} {p : ℚ} {cs : List Char} {n : Nat}
    {cs' : List Char} {n' : Nat} (h : corruptRunes g p cs n = some (cs', n')) :
    cs'.length = cs.length := by
  obtain ⟨a, b, heq, hlen, -, -⟩ := corruptRunes_spec g p cs n
  rw [heq] at h
  obtain ⟨rfl, rfl⟩ : a = cs' ∧ b = n' := by
    constructor <;> [exact congrArg Prod.fst (Option.some.inj h);
      exact congrArg Prod.snd (Option.some.inj h)]
  exact hlen

/-- Extract position preservation from `corruptRunes_spec` for a given run. -/
theorem corruptRunes_preservedAt {g : RandSrc} {p : ℚ} {cs : List Char} {n : Nat}
    {cs' : List Char} {n' : Nat} (h : corruptRunes g p cs n = some (cs', n'))
    {j : Nat} {c : Char} (hj : cs.get? j = some c)
    (hc : preservedChar c = true) : cs'.get? j = some c := by
  obtain ⟨a, b, heq, -, hpres, -⟩ := corruptRunes_spec g p cs n
  rw [heq] at h
  obtain ⟨rfl, rfl⟩ : a = cs' ∧ b = n' := by
    constructor <;> [exact congrArg Prod.fst (Option.some.inj h);
      exact congrArg Prod.snd (Option.some.inj h)]
  exact hpres j c hj hc

/-- Extract character provenance from `corruptRunes_spec` for a given run. -/
theorem corruptRunes_subset {g : RandSrc} {p : ℚ} {cs : List Char} {n : Nat}
    {cs' : List Char} {n' : Nat} (h : corruptRunes g p cs n = some (cs', n'))
    {c : Char} (hc : c ∈ cs') : c ∈ cs ∨ c ∈ glitchChars := by
  obtain ⟨a, b, heq, -, -, hmem⟩ := corruptRunes_spec g p cs n
  rw [heq] at h
  obtain ⟨rfl, rfl⟩ : a = cs' ∧ b = n' := by
    constructor <;> [exact congrArg Prod.fst (Option.some.inj h);
      exact congrArg Prod.snd (Option.some.inj h)]
  exact hmem c hc

/-- Relation between an input word and the corresponding output word of the
word loop: either a glitch word was chosen, or the rune loop produced it. -/
def wordOutcome (g : RandSrc) (pc : ℚ) (w w' : List Char) : Prop :=
  w' ∈ glitchWords ∨ ∃ m m', corruptRunes g pc w m = some (w', m')

/-- The word loop always succeeds, and each output word is either a glitch
word or the rune-loop image of the corresponding input word. -/
theorem corruptWords_spec (g : RandSrc) (pw pc : ℚ) :
    ∀ (ws : List (List Char)) (n : Nat), ∃ ws' n',
      corruptWords g pw pc ws n = some (ws', n') ∧
      List.Forall₂ (wordOutcome g pc) ws ws' := by
  intro ws
  induction ws with
  | nil => exact fun n => ⟨[], n, rfl, List.Forall₂.nil⟩
  | cons w ws ih =>
    intro n
    by_cases hf : g.floats n < pw
    · obtain ⟨gw, hgw, hgwm⟩ := pickGlitchWord_spec (g.nats (n + 1))
      obtain ⟨ws', n', heq, hrel⟩ := ih (n + 2)
      exact ⟨gw :: ws', n', by simp [corruptWords, hf, hgw, heq],
        List.Forall₂.cons (Or.inl hgwm) hrel⟩
    · obtain ⟨w', n1, hr, -, -, -⟩ := corruptRunes_spec g pc w (n + 1)
      obtain ⟨ws', n', heq, hrel⟩ := ih n1
      exact ⟨w' :: ws', n', by simp [corruptWords, hf, hr, heq],
        List.Forall₂.cons (Or.inr ⟨n + 1, n1, hr⟩) hrel⟩

/-- Extract the per-word relation from `corruptWords_spec` for a given run. -/
theorem corruptWords_forall2 {g : RandSrc} {pw pc : ℚ} {ws : List (List Char)}
    {n : Nat} {ws' : List (List Char)} {n' : Nat}
    (h : corruptWords g pw pc ws n = some (ws', n')) :
    List.Forall₂ (wordOutcome g pc) ws ws' := by
  obtain ⟨a, b, heq, hrel⟩ := corruptWords_spec g pw pc ws n
  rw [heq] at h
  obtain ⟨rfl, rfl⟩ : a = ws' ∧ b = n' := by
    constructor <;> [exact congrArg Prod.fst (Option.some.inj h);
      exact congrArg Prod.snd (Option.some.inj h)]
  exact hrel

/-- When every float draw fails the word threshold, no word is replaced:
each output word is the rune-loop image of its input word. -/
theorem corruptWords_no_replace {g : RandSrc} {pw pc : ℚ}
    (hfail : ∀ m, ¬ g.floats m < pw) :
    ∀ {ws : List (List Char)} {n : Nat} {ws' : List (List Char)} {n' : Nat},
      corruptWords g pw pc ws n = some (ws', n') →
      List.Forall₂ (fun w w' : List Char => w'.length = w.length) ws ws' := by
  intro ws
  induction ws with
  | nil =>
    intro n ws' n' h
    obtain ⟨rfl, -⟩ : ws' = [] ∧ n' = n := by
      constructor <;> [exact (congrArg Prod.fst (Option.some.inj h)).symm;
        exact (congrArg Prod.snd (Option.some.inj h)).symm]
    exact List.Forall₂.nil
  | cons w ws ih =>
    intro n ws' n' h
    rw [corruptWords, if_neg (hfail n)] at h
    obtain ⟨w1, n1, hr, -, -, -⟩ := corruptRunes_spec g pc w (n + 1)
    obtain ⟨ws1, n2, heq, -⟩ := corruptWords_spec g pw pc ws n1
    simp only [hr, heq] at h
    obtain ⟨rfl, -⟩ : w1 :: ws1 = ws' ∧ n2 = n' := by
      constructor <;> [exact congrArg Prod.fst (Option.some.inj h);
        exact congrArg Prod.snd (Option.some.inj h)]
    exact List.Forall₂.cons (corruptRunes_length hr) (ih heq)

/-- A `Forall₂` relation lets every right element be traced to a related
left element. -/
theorem forall2_exists_left {α β : Type} {R : α → β → Prop} :
    ∀ {l1 : List α} {l2 : List β}, List.Forall₂ R l1 l2 →
      ∀ b ∈ l2, ∃ a ∈ l1, R a b := by
  intro l1 l2 h
  induction h with
  | nil => simp
  | cons hr _ ih =>
    intro b hb
    rcases List.mem_cons.1 hb with h1 | h1
    · exact ⟨_, List.mem_cons_self _ _, h1 ▸ hr⟩
    · obtain ⟨a, ha, har⟩ := ih b h1
      exact ⟨a, List.mem_cons_of_mem _ ha, har⟩

/-- Invariant of the splitter: if a property holds on the pending
accumulator and on every non-space character of the remaining input, every
produced token is nonempty and satisfies it throughout. -/
theorem fieldsAux_good (P : Char → Prop) :
    ∀ (s acc : List Char), (∀ c ∈ acc, P c) →
      (∀ c ∈ s, isSpace c = false → P c) →
      ∀ w ∈ fieldsAux acc s, w ≠ [] ∧ ∀ c ∈ w, P c := by
  intro s
  induction s with
  | nil =>
    intro acc hacc _ w hw
    cases acc with
    | nil => exact absurd hw (List.not_mem_nil w)
    | cons a as =>
      have hw2 : w = (a :: as).reverse := by
        have heq : fieldsAux (a :: as) [] = [(a :: as).reverse] := by
          rw [fieldsAux]
          simp
        rw [heq] at hw
        simpa using hw
      subst hw2
      refine ⟨by simp, ?_⟩
      intro c hc
      exact hacc c (List.mem_reverse.1 hc)
  | cons c cs ih =>
    intro acc hacc hs w hw
    by_cases hsp : isSpace c
    · cases acc with
      | nil =>
        rw [fieldsAux, if_pos hsp] at hw
        simp only [List.isEmpty_nil, if_pos] at hw
        exact ih [] (by simp) (fun d hd => hs d (List.mem_cons_of_mem _ hd)) w hw
      | cons a as =>
        rw [fieldsAux, if_pos hsp] at hw
        simp only [List.isEmpty_cons, if_neg] at hw
        rcases List.mem_cons.1 hw with h1 | h1
        · subst h1
          refine ⟨by simp, ?_⟩
          intro d hd
          exact hacc d (List.mem_reverse.1 hd)
        · exact ih [] (by simp) (fun d hd => hs d (List.mem_cons_of_mem _ hd)) w h1
    · rw [fieldsAux, if_neg hsp] at hw
      refine ih (c :: acc) ?_ (fun d hd => hs d (List.mem_cons_of_mem _ hd)) w hw
      intro d hd
      rcases List.mem_cons.1 hd with h1 | h1
      · exact h1 ▸ hs c (List.mem_cons_self _ _) (by simpa using hsp)
      · exact hacc d h1

/-- Every token of `fields s` is nonempty and consists of non-space
characters of `s`. -/
theorem fields_good (s : List Char) :
    ∀ w ∈ fields s, w ≠ [] ∧ ∀ c ∈ w, c ∈ s ∧ isSpace c = false :=
  fieldsAux_good (fun c => c ∈ s ∧ isSpace c = false) s [] (by simp)
    (fun c hc hsp => ⟨hc, hsp⟩)

/-- Feeding a space-free prefix to the splitter just extends the pending
accumulator. -/
theorem fieldsAux_append_nospace :
    ∀ (w acc rest : List Char), (∀ c ∈ w, isSpace c = false) →
      fieldsAux acc (w ++ rest) = fieldsAux (w.reverse ++ acc) rest := by
  intro w
  induction w with
  | nil => intro acc rest _; simp
  | cons c cs ih =>
    intro acc rest hw
    have hc : isSpace c = false := hw c (List.mem_cons_self _ _)
    rw [List.cons_append, fieldsAux, if_neg (by simp [hc])]
    rw [ih (c :: acc) rest (fun d hd => hw d (List.mem_cons_of_mem _ hd))]
    simp

/-- Splitting a single-space join of nonempty space-free tokens recovers
exactly those tokens. -/
theorem fields_joinWords :
    ∀ ws : List (List Char),
      (∀ w ∈ ws, w ≠ [] ∧ ∀ c ∈ w, isSpace c = false) →
      fields (joinWords ws) = ws := by
  intro ws
  induction ws with
  | nil => intro _; rfl
  | cons w ws ih =>
    intro hws
    obtain ⟨hne, hnsp⟩ := hws w (List.mem_cons_self _ _)
    cases ws with
    | nil =>
      show fieldsAux [] (joinWords [w]) = [w]
      have : joinWords [w] = w ++ [] := by simp [joinWords]
      rw [this, fieldsAux_append_nospace w [] [] hnsp]
      cases w with
      | nil => exact absurd rfl hne
      | cons a as => simp [fieldsAux]
    | cons w2 ws2 =>
      show fieldsAux [] (joinWords (w :: w2 :: ws2)) = w :: w2 :: ws2
      have hj : joinWords (w :: w2 :: ws2) = w ++ ' ' :: joinWords (w2 :: ws2) := by
        simp [joinWords]
      rw [hj, fieldsAux_append_nospace w [] (' ' :: joinWords (w2 :: ws2)) hnsp]
      rw [fieldsAux, if_pos (by decide)]
      rw [if_neg (by simpa using hne)]
      have h2 : fieldsAux [] (joinWords (w2 :: ws2)) = w2 :: ws2 :=
        ih (fun u hu => hws u (List.mem_cons_of_mem _ hu))
      rw [h2]
      simp

/-- Every character of a single-space join is a character of one of the
joined words, or the separator itself. -/
theorem joinWords_chars :
    ∀ (ws : List (List Char)) (c : Char), c ∈ joinWords ws →
      (∃ w ∈ ws, c ∈ w) ∨ c = ' ' := by
  intro ws
  induction ws with
  | nil => simp [joinWords]
  | cons w ws ih =>
    intro c hc
    cases ws with
    | nil =>
      simp only [joinWords] at hc
      exact Or.inl ⟨w, List.mem_cons_self _ _, hc⟩
    | cons w2 ws2 =>
      simp only [joinWords] at hc
      rcases List.mem_append.1 hc with h1 | h1
      · exact Or.inl ⟨w, List.mem_cons_self _ _, h1⟩
      · rcases List.mem_cons.1 h1 with h2 | h2
        · exact Or.inr h2
        · rcases ih c h2 with ⟨u, hu, hcu⟩ | h3
          · exact Or.inl ⟨u, List.mem_cons_of_mem _ hu, hcu⟩
          · exact Or.inr h3

/-- The severity clamp of corrupt.go (`if severity > 100 { severity = 100 }`,
reached only when `severity > 0`). -/
def clampSev (severity : Int) : Int := if severity > 100 then 100 else severity

/-- `glitchWords` contains only nonempty, space-free tokens. -/
theorem glitchWords_good : ∀ w ∈ glitchWords, w ≠ [] ∧ ∀ c ∈ w, isSpace c = false := by
  decide

/-- The glyph palette contains no white-space character. -/
theorem glitchChars_nospace : ∀ c ∈ glitchChars, isSpace c = false := by decide

/-- The word loop turns a nonempty space-free word into a nonempty
space-free word. -/
theorem wordOutcome_good {g : RandSrc} {pc : ℚ} {w w' : List Char}
    (hw : w ≠ [] ∧ ∀ c ∈ w, isSpace c = false) (h : wordOutcome g pc w w') :
    w' ≠ [] ∧ ∀ c ∈ w', isSpace c = false := by
  rcases h with h | ⟨m, m', hr⟩
  · exact glitchWords_good w' h
  · constructor
    · intro hnil
      have hlen := corruptRunes_length hr
      rw [hnil] at hlen
      exact hw.1 (List.length_eq_zero.1 hlen.symm)
    · intro c hc
      rcases corruptRunes_subset hr hc with h1 | h1
      · exact hw.2 c h1
      · exact glitchChars_nospace c h1

/-- For positive severity, `CorruptText` is the word loop on the fields of
the input with the clamped thresholds, rejoined. -/
theorem CorruptText_unfold (g : RandSrc) (input : List Char) (severity : Int)
    (h : ¬ severity ≤ 0) :
    CorruptText g input severity =
      match corruptWords g ((clampSev severity : ℚ) / 500)
          ((clampSev severity : ℚ) / 100) (fields input) 0 with
      | none => none
      | some (ws, _) => some (joinWords ws) := by
  rw [CorruptText, if_neg h]
  rfl

/-- One complete positive-severity run of `CorruptText`: the word loop
succeeds, the output is its single-space rejoin, each output word is the
outcome of the matching input word, and re-splitting the output recovers
the output words. -/
theorem CorruptText_run (g : RandSrc) (input : List Char) (severity : Int)
    (h : 0 < severity) :
    ∃ ws n',
      corruptWords g ((clampSev severity : ℚ) / 500) ((clampSev severity : ℚ) / 100)
          (fields input) 0 = some (ws, n') ∧
      CorruptText g input severity = some (joinWords ws) ∧
      List.Forall₂ (wordOutcome g ((clampSev severity : ℚ) / 100)) (fields input) ws ∧
      fields (joinWords ws) = ws := by
  obtain ⟨ws, n', heq, hrel⟩ := corruptWords_spec g ((clampSev severity : ℚ) / 500)
    ((clampSev severity : ℚ) / 100) (fields input) 0
  have hgood : ∀ w ∈ ws, w ≠ [] ∧ ∀ c ∈ w, isSpace c = false := by
    intro w' hw'
    obtain ⟨w, hwmem, hout⟩ := forall2_exists_left hrel w' hw'
    have hg := fields_good input w hwmem
    exact wordOutcome_good ⟨hg.1, fun c hc => (hg.2 c hc).2⟩ hout
  refine ⟨ws, n', heq, ?_, hrel, fields_joinWords ws hgood⟩
  rw [CorruptText_unfold g input severity (by omega), heq]

/-- C4: identity law — for every input and every severity ≤ 0,
`CorruptText` returns the input unchanged, original whitespace included. -/
theorem C4_identity (g : RandSrc) (input : List Char) (severity : Int)
    (h : severity ≤ 0) : CorruptText g input severity = some input := by
  rw [CorruptText, if_pos h]

/-- Witness for C4 at severity 0 on an input with a multi-space run. -/
theorem C4_identity_witness :
    CorruptText gHalf (String.toList "a   b") 0 = some (String.toList "a   b") :=
  C4_identity gHalf (String.toList "a   b") 0 (by decide)

/-- C5: clamping law — for every input and severity above 100,
`CorruptText` behaves exactly as at severity 100 (same random stream). -/
theorem C5_clamping (g : RandSrc) (input : List Char) (severity : Int)
    (h : 100 < severity) : CorruptText g input severity = CorruptText g input 100 := by
  rw [CorruptText_unfold g input severity (by omega),
    CorruptText_unfold g input 100 (by omega)]
  have hc : clampSev severity = clampSev 100 := by
    rw [clampSev, clampSev, if_pos (by omega), if_neg (by omega)]
  rw [hc]

/-- Witness for C5 at severity 250. -/
theorem C5_clamping_witness :
    CorruptText gHalf (String.toList "ab") 250 = CorruptText gHalf (String.toList "ab") 100 :=
  C5_clamping gHalf (String.toList "ab") 250 (by decide)

/-- C7: totality — `CorruptText` never panics: for every random stream,
input and integer severity the run returns a value (in particular every
palette and glitch-word index drawn during execution is in bounds). -/
theorem C7_total (g : RandSrc) (input : List Char) (severity : Int) :
    (CorruptText g input severity).isSome = true := by
  by_cases h : severity ≤ 0
  · rw [CorruptText, if_pos h]
    rfl
  · obtain ⟨ws, n', -, hct, -, -⟩ := CorruptText_run g input severity (by omega)
    rw [hct]
    rfl

/-- C2: token-count preservation — the output of any successful run splits
into exactly as many whitespace-delimited tokens as the input. -/
theorem C2_token_count (g : RandSrc) (input : List Char) (severity : Int)
    (out : List Char) (h : CorruptText g input severity = some out) :
    (fields out).length = (fields input).length := by
  by_cases hs : severity ≤ 0
  · rw [CorruptText, if_pos hs] at h
    rw [← Option.some.inj h]
  · obtain ⟨ws, n', heq, hct, hrel, hfj⟩ := CorruptText_run g input severity (by omega)
    rw [hct] at h
    rw [← Option.some.inj h, hfj]
    exact (List.Forall₂.length_eq hrel).symm

/-- Witness for C2: a severity-100 run that replaces a whole word. -/
theorem C2_token_count_witness :
    (fields (String.toList "[DATA_EXPUNGED] [DATA_EXPUNGED]")).length =
      (fields (String.toList "hi there")).length :=
  C2_token_count gZero (String.toList "hi there") 100
    (String.toList "[DATA_EXPUNGED] [DATA_EXPUNGED]")
    (by rw [CorruptText_divInt gZero _ 100 (by decide) (by decide)]; decide)

/-- C6: for positive severity the output is the corrupted token sequence
rejoined with single spaces (original whitespace is not preserved); with
all draws failing, `"a   b"` at severity 50 becomes `"a b"`; the empty
string maps to the empty string at every severity. -/
theorem C6_rejoin :
    (∀ (g : RandSrc) (input : List Char) (severity : Int), 0 < severity →
      ∃ ws n', corruptWords g ((clampSev severity : ℚ) / 500)
          ((clampSev severity : ℚ) / 100) (fields input) 0 = some (ws, n') ∧
        CorruptText g input severity = some (joinWords ws))
  ∧ CorruptText gHigh (String.toList "a   b") 50 = some (String.toList "a b")
  ∧ (∀ (g : RandSrc) (severity : Int), CorruptText g [] severity = some []) := by
  refine ⟨?_, ?_, ?_⟩
  · intro g input severity h
    obtain ⟨ws, n', heq, hct, -, -⟩ := CorruptText_run g input severity h
    exact ⟨ws, n', heq, hct⟩
  · rw [CorruptText_divInt gHigh _ 50 (by decide) (by decide)]
    decide
  · intro g severity
    by_cases h : severity ≤ 0
    · rw [CorruptText, if_pos h]
    · obtain ⟨ws, n', heq, hct, hrel, -⟩ := CorruptText_run g [] severity (by omega)
      have hf : fields ([] : List Char) = [] := rfl
      rw [hf] at hrel
      cases hrel
      exact hct

/-- Witness for C6 instantiating the rejoin clause at severity 50. -/
theorem C6_rejoin_witness :
    ∃ ws n', corruptWords gHigh ((clampSev 50 : ℚ) / 500)
        ((clampSev 50 : ℚ) / 100) (fields (String.toList "a b")) 0 = some (ws, n') ∧
      CorruptText gHigh (String.toList "a b") 50 = some (joinWords ws) :=
  C6_rejoin.1 gHigh (String.toList "a b") 50 (by decide)

/-- C1: the two corruption thresholds are exactly `severity/500` and
`severity/100` after clamping; a word is wholly replaced exactly when its
draw is strictly below the word threshold, a non-preserved character is
substituted exactly when its draw is strictly below the character
threshold; at severity 100 the word threshold is `1/5` and, with draws in
`[0,1)`, a non-preserved character is replaced with a palette glyph with
certainty. -/
theorem C1_thresholds :
    (∀ (g : RandSrc) (input : List Char) (severity : Int), 0 < severity →
      CorruptText g input severity =
        match corruptWords g ((clampSev severity : ℚ) / 500)
            ((clampSev severity : ℚ) / 100) (fields input) 0 with
        | none => none
        | some (ws, _) => some (joinWords ws))
  ∧ (∀ (g : RandSrc) (pw pc : ℚ) (w : List Char) (ws : List (List Char)) (n : Nat),
      (g.floats n < pw →
        corruptWords g pw pc (w :: ws) n =
          match pickGlitchWord (g.nats (n + 1)) with
          | none => none
          | some gw =>
            match corruptWords g pw pc ws (n + 2) with
            | none => none
            | some (ws', n') => some (gw :: ws', n')) ∧
      (¬ g.floats n < pw →
        corruptWords g pw pc (w :: ws) n =
          match corruptRunes g pc w (n + 1) with
          | none => none
          | some (w', n1) =>
            match corruptWords g pw pc ws n1 with
            | none => none
            | some (ws', n') => some (w' :: ws', n')))
  ∧ (∀ (g : RandSrc) (p : ℚ) (c : Char) (cs : List Char) (n : Nat),
      preservedChar c = false →
      (g.floats n < p →
        corruptRunes g p (c :: cs) n =
          match pickGlitchChar (g.nats (n + 1)) with
          | none => none
          | some ch =>
            match corruptRunes g p cs (n + 2) with
            | none => none
            | some (cs', n') => some (ch :: cs', n')) ∧
      (¬ g.floats n < p →
        corruptRunes g p (c :: cs) n =
          match corruptRunes g p cs (n + 1) with
          | none => none
          | some (cs', n') => some (c :: cs', n')))
  ∧ ((clampSev 100 : ℚ) / 500 = 1 / 5 ∧
     ∀ (g : RandSrc) (c : Char) (cs : List Char) (n : Nat),
       preservedChar c = false → 0 ≤ g.floats n → g.floats n < 1 →
       ∃ ch cs' n', corruptRunes g ((clampSev 100 : ℚ) / 100) (c :: cs) n =
           some (ch :: cs', n') ∧ ch ∈ glitchChars) := by
  refine ⟨?_, ?_, ?_, ?_, ?_⟩
  · intro g input severity h
    exact CorruptText_unfold g input severity (by omega)
  · intro g pw pc w ws n
    constructor
    · intro hf
      rw [corruptWords, if_pos hf]
    · intro hf
      rw [corruptWords, if_neg hf]
  · intro g p c cs n hpc
    constructor
    · intro hf
      rw [corruptRunes, if_neg (by simp [hpc]), if_pos hf]
    · intro hf
      rw [corruptRunes, if_neg (by simp [hpc]), if_neg hf]
  · norm_num [clampSev]
  · intro g c cs n hpc h0 h1
    have hone : (clampSev 100 : ℚ) / 100 = 1 := by norm_num [clampSev]
    have hlt : g.floats n < (clampSev 100 : ℚ) / 100 := by
      rw [hone]
      exact h1
    obtain ⟨ch, hch, hchm⟩ := pickGlitchChar_spec (g.nats (n + 1))
    obtain ⟨cs', n', hrec, -, -, -⟩ :=
      corruptRunes_spec g ((clampSev 100 : ℚ) / 100) cs (n + 2)
    refine ⟨ch, cs', n', ?_, hchm⟩
    rw [corruptRunes, if_neg (by simp [hpc]), if_pos hlt]
    simp [hch, hrec]

/-- Witness for C1: at severity 100 a non-preserved character is replaced
with a palette glyph even though the draw 1/2 is as large as it is. -/
theorem C1_thresholds_witness :
    ∃ ch cs' n', corruptRunes gHalf ((clampSev 100 : ℚ) / 100) ['a', 'b'] 0 =
        some (ch :: cs', n') ∧ ch ∈ glitchChars :=
  C1_thresholds.2.2.2.2 gHalf 'a' ['b'] 0 (by decide)
    (by norm_num [gHalf, Rat.divInt_eq_div])
    (by norm_num [gHalf, Rat.divInt_eq_div])

/-- C3: the per-character step never replaces a literal space, period or
comma — they appear unchanged at their positions — and concretely
`CorruptText "a.b,c" 100` with a failing word draw keeps `.` and `,` while
replacing every other character with a palette glyph. -/
theorem C3_preserved :
    (∀ (g : RandSrc) (p : ℚ) (cs : List Char) (n : Nat) (cs' : List Char) (n' : Nat),
        corruptRunes g p cs n = some (cs', n') →
        ∀ (j : Nat) (c : Char), cs.get? j = some c →
          (c = ' ' ∨ c = '.' ∨ c = ',') → cs'.get? j = some c)
  ∧ CorruptText gHalf (String.toList "a.b,c") 100 = some (String.toList "█.█,█") := by
  constructor
  · intro g p cs n cs' n' h j c hj hdisj
    refine corruptRunes_preservedAt h hj ?_
    rcases hdisj with rfl | rfl | rfl <;> rfl
  · rw [CorruptText_divInt gHalf _ 100 (by decide) (by decide)]
    decide

/-- Witness for C3: a concrete rune-loop run around an in-word period. -/
theorem C3_preserved_witness :
    (String.toList "█.█").get? 1 = some '.' :=
  C3_preserved.1 gHalf (Rat.divInt 1 1) (String.toList "x.y") 0
    (String.toList "█.█") 4 (by decide) 1 '.' (by decide) (Or.inr (Or.inl rfl))

/-- C9: output-alphabet closure — every code point of a successful run's
output is a code point of the input, a palette glyph, a code point of a
glitch word, or the single-space separator. -/
theorem C9_closure (g : RandSrc) (input : List Char) (severity : Int)
    (out : List Char) (h : CorruptText g input severity = some out) :
    ∀ c ∈ out, c ∈ input ∨ c ∈ glitchChars ∨ (∃ w ∈ glitchWords, c ∈ w) ∨ c = ' ' := by
  by_cases hs : severity ≤ 0
  · rw [CorruptText, if_pos hs] at h
    rw [← Option.some.inj h]
    exact fun c hc => Or.inl hc
  · obtain ⟨ws, n', heq, hct, hrel, -⟩ := CorruptText_run g input severity (by omega)
    rw [hct] at h
    rw [← Option.some.inj h]
    intro c hc
    rcases joinWords_chars ws c hc with ⟨w', hw', hcw⟩ | hsp
    · obtain ⟨w, hwmem, hout⟩ := forall2_exists_left hrel w' hw'
      rcases hout with hg | ⟨m, m', hr⟩
      · exact Or.inr (Or.inr (Or.inl ⟨w', hg, hcw⟩))
      · rcases corruptRunes_subset hr hcw with h1 | h1
        · exact Or.inl ((fields_good input w hwmem).2 c h1).1
        · exact Or.inr (Or.inl h1)
    · exact Or.inr (Or.inr (Or.inr hsp))

/-- Witness for C9 on a run mixing glyph substitution and kept characters,
instantiated at the substituted glyph in the output. -/
theorem C9_closure_witness :
    '█' ∈ String.toList "a.b,c" ∨ '█' ∈ glitchChars ∨
      (∃ w ∈ glitchWords, '█' ∈ w) ∨ '█' = ' ' :=
  C9_closure gHalf (String.toList "a.b,c") 100 (String.toList "█.█,█")
    (by rw [CorruptText_divInt gHalf _ 100 (by decide) (by decide)]; decide)
    '█' (by decide)

/-- C10: per-word length preservation — the rune loop is a one-for-one
code-point substitution, and when no word-replacement draw succeeds every
output token has the code-point length of its input token. -/
theorem C10_word_length :
    (∀ (g : RandSrc) (p : ℚ) (cs : List Char) (n : Nat) (cs' : List Char) (n' : Nat),
        corruptRunes g p cs n = some (cs', n') → cs'.length = cs.length)
  ∧ (∀ (g : RandSrc) (input : List Char) (severity : Int) (out : List Char),
        0 < severity →
        (∀ m, ¬ g.floats m < (clampSev severity : ℚ) / 500) →
        CorruptText g input severity = some out →
        List.Forall₂ (fun w w' : List Char => w'.length = w.length)
          (fields input) (fields out)) := by
  refine ⟨fun g p cs n cs' n' h => corruptRunes_length h, ?_⟩
  intro g input severity out h hfail hct
  obtain ⟨ws, n', heq, hct2, -, hfj⟩ := CorruptText_run g input severity h
  rw [hct2] at hct
  rw [← Option.some.inj hct, hfj]
  exact corruptWords_no_replace hfail heq

/-- Witness for C10 on a severity-50 run where every draw fails. -/
theorem C10_word_length_witness :
    List.Forall₂ (fun w w' : List Char => w'.length = w.length)
      (fields (String.toList "ab cd")) (fields (String.toList "ab cd")) :=
  C10_word_length.2 gHigh (String.toList "ab cd") 50 (String.toList "ab cd")
    (by decide)
    (fun m => by norm_num [gHigh, clampSev, Rat.divInt_eq_div])
    (by rw [CorruptText_divInt gHigh _ 50 (by decide) (by decide)]; decide)


/-- Unfolding of the decoder between characters on a nonempty input. -/
theorem utf8DecodeSM_start (b : Nat) (bs : List Nat) (a l : Nat) :
    utf8DecodeSM (b :: bs) 0 a l =
      if b < 0x80 then (utf8DecodeSM bs 0 0 0).map (fun cs => Char.ofNat b :: cs)
      else if b < 0xC0 then none
      else if b < 0xE0 then utf8DecodeSM bs 1 (b - 0xC0) 0x80
      else if b < 0xF0 then utf8DecodeSM bs 2 (b - 0xE0) 0x800
      else if b < 0xF8 then utf8DecodeSM bs 3 (b - 0xF0) 0x10000
      else none := rfl

/-- Unfolding of the decoder on the final continuation byte of a code
point. -/
theorem utf8DecodeSM_last (b : Nat) (bs : List Nat) (acc lo : Nat) :
    utf8DecodeSM (b :: bs) 1 acc lo =
      if contByte b then
        if lo ≤ acc * 64 + (b - 0x80) ∧
            (acc * 64 + (b - 0x80) < 0xD800 ∨ 0xE000 ≤ acc * 64 + (b - 0x80)) ∧
            acc * 64 + (b - 0x80) < 0x110000 then
          (utf8DecodeSM bs 0 0 0).map (fun cs => Char.ofNat (acc * 64 + (b - 0x80)) :: cs)
        else none
      else none := rfl

/-- Unfolding of the decoder on an inner continuation byte of a code
point. -/
theorem utf8DecodeSM_step (b : Nat) (bs : List Nat) (k acc lo : Nat) :
    utf8DecodeSM (b :: bs) (k + 2) acc lo =
      if contByte b then utf8DecodeSM bs (k + 1) (acc * 64 + (b - 0x80)) lo
      else none := rfl

/-- Decoding inverts encoding one code point at a time: the bytes of `c`
followed by any tail decode to `c` followed by the decoding of the tail. -/
theorem utf8Decode_encodeChar (c : Char) (rest : List Nat) :
    utf8Decode (utf8EncodeChar c ++ rest) =
      (utf8Decode rest).map (fun cs => c :: cs) := by
  have hval : c.toNat < 0xD800 ∨ (0xE000 ≤ c.toNat ∧ c.toNat < 0x110000) := by
    rcases c.valid with h | h
    · left
      exact_mod_cast h
    · right
      constructor <;> [exact_mod_cast h.1; exact_mod_cast h.2]
  show utf8DecodeSM (utf8EncodeChar c ++ rest) 0 0 0 =
    (utf8DecodeSM rest 0 0 0).map (fun cs => c :: cs)
  by_cases h1 : c.toNat < 0x80
  · rw [utf8EncodeChar, if_pos h1, List.cons_append, List.nil_append,
      utf8DecodeSM_start, if_pos h1, Char.ofNat_toNat]
  · by_cases h2 : c.toNat < 0x800
    · have hcont : contByte (0x80 + c.toNat % 64) = true := by
        simp only [contByte, Bool.and_eq_true, decide_eq_true_eq]
        omega
      have hre : (0xC0 + c.toNat / 64 - 0xC0) * 64 + (0x80 + c.toNat % 64 - 0x80) =
          c.toNat := by omega
      rw [utf8EncodeChar, if_neg h1, if_pos h2]
      simp only [List.cons_append, List.nil_append]
      rw [utf8DecodeSM_start, if_neg (by omega), if_neg (by omega), if_pos (by omega),
        utf8DecodeSM_last, hcont, if_pos rfl, hre, if_pos (by omega), Char.ofNat_toNat]
    · by_cases h3 : c.toNat < 0x10000
      · have hcont1 : contByte (0x80 + c.toNat / 64 % 64) = true := by
          simp only [contByte, Bool.and_eq_true, decide_eq_true_eq]
          omega
        have hcont2 : contByte (0x80 + c.toNat % 64) = true := by
          simp only [contByte, Bool.and_eq_true, decide_eq_true_eq]
          omega
        have hre : (0xE0 + c.toNat / 4096 - 0xE0) * 64 + (0x80 + c.toNat / 64 % 64 - 0x80) =
            c.toNat / 64 := by omega
        have hre2 : c.toNat / 64 * 64 + (0x80 + c.toNat % 64 - 0x80) = c.toNat := by
          omega
        rw [utf8EncodeChar, if_neg h1, if_neg h2, if_pos h3]
        simp only [List.cons_append, List.nil_append]
        rw [utf8DecodeSM_start, if_neg (by omega), if_neg (by omega), if_neg (by omega),
          if_pos (by omega), utf8DecodeSM_step, hcont1, if_pos rfl, hre,
          utf8DecodeSM_last, hcont2, if_pos rfl, hre2, if_pos (by omega),
          Char.ofNat_toNat]
      · have hcont1 : contByte (0x80 + c.toNat / 4096 % 64) = true := by
          simp only [contByte, Bool.and_eq_true, decide_eq_true_eq]
          omega
        have hcont2 : contByte (0x80 + c.toNat / 64 % 64) = true := by
          simp only [contByte, Bool.and_eq_true, decide_eq_true_eq]
          omega
        have hcont3 : contByte (0x80 + c.toNat % 64) = true := by
          simp only [contByte, Bool.and_eq_true, decide_eq_true_eq]
          omega
        have hre : (0xF0 + c.toNat / 262144 - 0xF0) * 64 +
            (0x80 + c.toNat / 4096 % 64 - 0x80) = c.toNat / 4096 := by omega
        have hre2 : c.toNat / 4096 * 64 + (0x80 + c.toNat / 64 % 64 - 0x80) =
            c.toNat / 64 := by omega
        have hre3 : c.toNat / 64 * 64 + (0x80 + c.toNat % 64 - 0x80) = c.toNat := by
          omega
        have h4 : c.toNat < 0x110000 := by omega
        rw [utf8EncodeChar, if_neg h1, if_neg h2, if_neg h3]
        simp only [List.cons_append, List.nil_append]
        rw [utf8DecodeSM_start, if_neg (by omega), if_neg (by omega), if_neg (by omega),
          if_neg (by omega), if_pos (by omega), utf8DecodeSM_step, hcont1, if_pos rfl,
          hre, utf8DecodeSM_step, hcont2, if_pos rfl, hre2, utf8DecodeSM_last, hcont3,
          if_pos rfl, hre3, if_pos (by omega), Char.ofNat_toNat]

/-- The UTF-8 bytes of any code-point sequence decode back to exactly that
sequence: Go's re-encoding of the corrupted rune slice never emits a
partial or invalid byte sequence. -/
theorem utf8Decode_utf8Encode (cs : List Char) :
    utf8Decode (utf8Encode cs) = some cs := by
  induction cs with
  | nil => rfl
  | cons c cs ih =>
    have he : utf8Encode (c :: cs) = utf8EncodeChar c ++ utf8Encode cs := by
      simp [utf8Encode]
    rw [he, utf8Decode_encodeChar, ih]
    rfl

/-- C8: multi-byte safety — the output of any successful run is a sequence
of whole, valid Unicode code points: every element is a valid scalar value,
and re-encoding the output to UTF-8 (as Go's `string(runes)` does) yields a
byte string that decodes back to exactly those code points, so no
multi-byte character is ever split or partially overwritten. -/
theorem C8_multibyte (g : RandSrc) (input : List Char) (severity : Int)
    (out : List Char) (_h : CorruptText g input severity = some out) :
    (∀ c ∈ out, UInt32.isValidChar c.val) ∧
    utf8Decode (utf8Encode out) = some out :=
  ⟨fun c _ => c.valid, utf8Decode_utf8Encode out⟩

/-- Witness for C8 on an input mixing 1-, 2-, 3- and 4-byte code points. -/
theorem C8_multibyte_witness :
    (∀ c ∈ String.toList "aé█𝄞", UInt32.isValidChar c.val) ∧
    utf8Decode (utf8Encode (String.toList "aé█𝄞")) = some (String.toList "aé█𝄞") :=
  C8_multibyte gHigh (String.toList "aé█𝄞") 50 (String.toList "aé█𝄞")
    (by rw [CorruptText_divInt gHigh _ 50 (by decide) (by decide)]; decide)
